import Mathlib

/-!
Verification of the dice-distribution modules of this repository:
`dice.py` (2021, with exact rational support) and `dice/dice.py`
(2019, floats only).

A Python dictionary mapping outcome values to positive counts is
modelled as a multiset of integers: the value stored under a key is
the multiplicity of that integer in the multiset, and a key is present
in the dictionary exactly when its multiplicity is positive.  Python
dictionary equality ignores insertion order, so this representation is
exact for the mappings these modules build (every count they ever
store is positive).
-/

/-- The error conditions the Python code can raise.  `invalidArgument`
stands for the assertions whose message is an invalid-argument
complaint, `invalidDie` for the assertion rejecting a nonpositive
number of sides, `typeError` for a Python `TypeError` (comparing a
non-numeric value against `0`), and `indexError` for `random.choice`
applied to an empty sequence. -/
inductive PyError where
  | invalidArgument
  | invalidDie
  | typeError
  | indexError
deriving DecidableEq

/-- An element of a Python dice list: an integer, a list of integers
(the faces of one die), or some other value (such as a string), which
the `isinstance` checks in the code reject or skip. -/
inductive Elem where
  | int (n : ℤ)
  | list (vs : List ℤ)
  | str
deriving DecidableEq

/-- A top-level argument to `diceDict`, `diceProb` or `roll`: an
integer, a list of elements, or some other value such as a string. -/
inductive PyVal where
  | int (n : ℤ)
  | list (ds : List Elem)
  | str
deriving DecidableEq

/-- The dictionary `{ x : 1 for x in range(1, n+1) }` built for a die
given as a bare integer `n`: the faces `1, ..., n`, once each. -/
def uniformDie (n : ℤ) : Multiset ℤ :=
  ↑((List.range n.toNat).map (fun i => Int.ofNat i + 1))

/-- The one-element branch of `diceDict` in `dice.py`: a list element
becomes the dictionary counting its entries (`newDict[x] =
diceList[0].count(x)`), an integer is asserted positive and becomes
`uniformDie`, and any other value raises a `TypeError` when compared
against `0` by `diceList[0] > 0`. -/
def singleDie : Elem → Except PyError (Multiset ℤ)
  | .list vs => .ok (↑vs)
  | .int n => if 0 < n then .ok (uniformDie n) else .error .invalidDie
  | .str => .error .typeError

/-- `_mergeDiceDicts` from `dice.py`: if either dictionary is empty
the other is returned unchanged; otherwise every pair of keys `k1, k2`
contributes `d1[k1] * d2[k2]` to the entry at `k1 + k2`.  In the
multiset model the double loop is `bind`/`map` over the two
multisets. -/
def mergeDiceDicts (d1 d2 : Multiset ℤ) : Multiset ℤ :=
  if d1 = 0 then d2
  else if d2 = 0 then d1
  else d1.bind (fun k1 => d2.map (fun k2 => k1 + k2))

/-- The nonempty-nonempty branch of `_mergeDiceDicts`, as its own
definition for the algebraic lemmas. -/
def rawConv (d1 d2 : Multiset ℤ) : Multiset ℤ :=
  d1.bind (fun k1 => d2.map (fun k2 => k1 + k2))

/-- A possible outcome of `random.shuffle`: a permutation of the list
it is handed.  `diceDict` is modelled as parametric in this oracle. -/
abbrev Shuffle := (l : List Elem) → {m : List Elem // m.Perm l}

/-- The shuffle outcome that leaves the list as it is. -/
def idShuffle : Shuffle := fun l => ⟨l, List.Perm.refl l⟩

/-- The shuffle outcome that reverses the list. -/
def reverseShuffle : Shuffle := fun l => ⟨l.reverse, List.reverse_perm l⟩

/-- `diceDict` from `dice.py`, parameterized by the outcomes of the
`random.shuffle` calls: empty list gives an empty dictionary, a
one-element list delegates to the single-die branch, and otherwise the
(shuffled) list is split at `L = int(len(diceList)/2)`, both halves
are built recursively, and the results are merged.  The final
`sorted(final.items())` pass rebuilds the same mapping and is
invisible in the multiset model. -/
def diceDictWith (sh : Shuffle) (l : List Elem) : Except PyError (Multiset ℤ) :=
  match l with
  | [] => .ok 0
  | [d] => singleDie d
  | d1 :: d2 :: rest =>
    ((diceDictWith sh (((sh (d1 :: d2 :: rest)).val).take
        ((sh (d1 :: d2 :: rest)).val.length / 2))).bind
      (fun left =>
        ((diceDictWith sh (((sh (d1 :: d2 :: rest)).val).drop
            ((sh (d1 :: d2 :: rest)).val.length / 2))).bind
          (fun right => .ok (mergeDiceDicts left right)))))
termination_by l.length
decreasing_by
  · have hl : (sh (d1 :: d2 :: rest)).val.length = rest.length + 2 :=
      ((sh (d1 :: d2 :: rest)).2.length_eq).trans (by simp)
    simp only [List.length_take, List.length_cons, hl]
    omega
  · have hl : (sh (d1 :: d2 :: rest)).val.length = rest.length + 2 :=
      ((sh (d1 :: d2 :: rest)).2.length_eq).trans (by simp)
    simp only [List.length_drop, List.length_cons, hl]
    omega

/-- `diceDict` under one fixed (identity) outcome of the shuffles. -/
def diceDict : List Elem → Except PyError (Multiset ℤ) :=
  diceDictWith idShuffle

/-- `diceDict` applied to an arbitrary top-level Python value: the
very first line is `assert isinstance(diceList, list)`, so every
non-list argument (bare integers included) fails with the
invalid-argument assertion. -/
def diceDictPy (v : PyVal) : Except PyError (Multiset ℤ) :=
  match v with
  | .list ds => diceDict ds
  | _ => .error .invalidArgument

/-- The state of the caller-owned list after a top-level `diceDict`
call: lists of length below two are returned untouched, otherwise
`random.shuffle(diceList)` has permuted the caller's list in place. -/
def diceDictPost (sh : Shuffle) (ds : List Elem) : List Elem :=
  match ds with
  | [] => ds
  | [_] => ds
  | _ => (sh ds).val

/-- The single-die dictionary an element denotes, ignoring errors:
used to state what `diceDict` computes on valid input. -/
def dieM : Elem → Multiset ℤ
  | .int n => uniformDie n
  | .list vs => ↑vs
  | .str => 0

/-- An element on which `diceDict` raises no error: a positive
integer, or a face list (possibly empty). -/
def validElem : Elem → Bool
  | .int n => decide (0 < n)
  | .list _ => true
  | .str => false

/-- A die-list on which `diceDict` raises no error. -/
def validList (ds : List Elem) : Bool :=
  ds.all validElem

/-- The mathematical value of `diceDict` on a valid list: the merge of
the single-die dictionaries, folded over the list. -/
def sem (ds : List Elem) : Multiset ℤ :=
  ds.foldr (fun e acc => mergeDiceDicts (dieM e) acc) 0

/-- The number of faces of one die: `n` for a bare integer `n`,
`len(values)` for a face list. -/
def faceCount : Elem → ℕ
  | .int n => n.toNat
  | .list vs => vs.length
  | .str => 0

/-- The product of the face counts of a die-list. -/
def facesProd (ds : List Elem) : ℕ :=
  (ds.map faceCount).prod

/-- The probability dictionary `{ x : valf(result[x], s) for x in
sorted(result.keys()) }` built by `diceProb` from the distribution
`d`, with `s = sum(result.values())` and the division operation left
abstract in `valf` (instantiated with exact `Fraction` division or
floating-point division). -/
def probAssoc {α : Type} (valf : ℕ → ℕ → α) (d : Multiset ℤ) : List (ℤ × α) :=
  (d.toFinset.sort (· ≤ ·)).map (fun x => (x, valf (d.count x) (Multiset.card d)))

/-- `diceProb` from `dice.py` with the per-entry division operation
abstracted: a bare integer argument is recast into a one-element list,
a non-list non-integer argument fails the entry assertion, and
otherwise the distribution is built and each count divided by the
total. -/
def diceProbWith {α : Type} (valf : ℕ → ℕ → α) (v : PyVal) :
    Except PyError (List (ℤ × α)) :=
  match v with
  | .int n => (diceDict [Elem.int n]).map (probAssoc valf)
  | .list ds => (diceDict ds).map (probAssoc valf)
  | .str => .error .invalidArgument

/-- Exact division as performed by `Fraction(count, s)`: the rational
number `count / s` in canonical reduced form (Python `Fraction`
equality agrees with reduced-fraction equality). -/
def fractionVal (c s : ℕ) : ℚ :=
  (c : ℚ) / (s : ℚ)

/-- `diceProb(diceList, exact=True)`. -/
def diceProbExact (v : PyVal) : Except PyError (List (ℤ × ℚ)) :=
  diceProbWith fractionVal v

/-- `diceProb(diceList, exact=False)`, with floating-point division
kept abstract: `fdiv c s` stands for the IEEE double `c / s`. -/
def diceProbFloat {F : Type} (fdiv : ℕ → ℕ → F) (v : PyVal) :
    Except PyError (List (ℤ × F)) :=
  diceProbWith fdiv v

/-- The body of the loop in `roll` from `dice.py`, processing the
elements in order and threading the index `i` into the stream of
random draws.  An integer element is asserted positive and contributes
`random.choice(range(1, n+1))`, a list element contributes
`random.choice(vs)` (raising `IndexError` on an empty list), and any
other element matches neither `isinstance` test and is silently
skipped, consuming no randomness. -/
def rollFrom (picks : ℕ → ℕ) : List Elem → ℕ → Except PyError ℤ
  | [], _ => .ok 0
  | .int n :: es, i =>
      if 0 < n then
        (rollFrom picks es (i + 1)).map
          (fun r => ((1 + (picks i % n.toNat) : ℕ) : ℤ) + r)
      else .error .invalidDie
  | .list vs :: es, i =>
      if h : 0 < vs.length then
        (rollFrom picks es (i + 1)).map
          (fun r => vs.get ⟨picks i % vs.length, Nat.mod_lt _ h⟩ + r)
      else .error .indexError
  | .str :: es, i => rollFrom picks es i

/-- `roll` from `dice.py`: a bare integer is recast into a one-element
list, a non-list non-integer argument fails the entry assertion, and
otherwise the elements are rolled in order and summed.  `picks` is the
stream of random draws, one natural number per `random.choice` call,
reduced modulo the length of the sequence chosen from. -/
def roll (picks : ℕ → ℕ) (v : PyVal) : Except PyError ℤ :=
  match v with
  | .int n => rollFrom picks [Elem.int n] 0
  | .list ds => rollFrom picks ds 0
  | .str => .error .invalidArgument

/-- Whether a computation returned a value rather than raising. -/
def exceptIsOk : Except PyError ℤ → Bool
  | .ok _ => true
  | .error _ => false

/-- Whether an element passes through the loop of `roll` without
raising: a positive integer, a nonempty face list, or any value that
is neither an integer nor a list (silently skipped). -/
def elemRollOk : Elem → Bool
  | .int n => decide (0 < n)
  | .list vs => decide (0 < vs.length)
  | .str => true

/-- Whether an element is neither an integer nor a list, hence skipped
by the loop of `roll`. -/
def Elem.isStr : Elem → Bool
  | .str => true
  | _ => false

/-- `_mergeDiceDicts` from the older module `dice/dice.py`; its body
is identical to the newer one. -/
def oldMergeDiceDicts (d1 d2 : Multiset ℤ) : Multiset ℤ :=
  if d1 = 0 then d2
  else if d2 = 0 then d1
  else d1.bind (fun k1 => d2.map (fun k2 => k1 + k2))

/-- `diceDict` from the older module `dice/dice.py`, parameterized by
the shuffle outcomes like the newer one.  The only textual difference
with the newer module is that the final dictionary is returned without
the key-sorting rebuild, which does not change the mapping. -/
def oldDiceDictWith (sh : Shuffle) (l : List Elem) : Except PyError (Multiset ℤ) :=
  match l with
  | [] => .ok 0
  | [d] => singleDie d
  | d1 :: d2 :: rest =>
    ((oldDiceDictWith sh (((sh (d1 :: d2 :: rest)).val).take
        ((sh (d1 :: d2 :: rest)).val.length / 2))).bind
      (fun left =>
        ((oldDiceDictWith sh (((sh (d1 :: d2 :: rest)).val).drop
            ((sh (d1 :: d2 :: rest)).val.length / 2))).bind
          (fun right => .ok (oldMergeDiceDicts left right)))))
termination_by l.length
decreasing_by
  · have hl : (sh (d1 :: d2 :: rest)).val.length = rest.length + 2 :=
      ((sh (d1 :: d2 :: rest)).2.length_eq).trans (by simp)
    simp only [List.length_take, List.length_cons, hl]
    omega
  · have hl : (sh (d1 :: d2 :: rest)).val.length = rest.length + 2 :=
      ((sh (d1 :: d2 :: rest)).2.length_eq).trans (by simp)
    simp only [List.length_drop, List.length_cons, hl]
    omega

/-- The older `diceDict` under the identity shuffle outcome. -/
def oldDiceDict : List Elem → Except PyError (Multiset ℤ) :=
  oldDiceDictWith idShuffle

/-- `diceProb` from the older module `dice/dice.py`: no `exact` flag,
every entry is the floating-point quotient `result[x]/s`.  The keys
are iterated without sorting, which yields the same mapping. -/
def oldDiceProb {F : Type} (fdiv : ℕ → ℕ → F) (v : PyVal) :
    Except PyError (List (ℤ × F)) :=
  match v with
  | .int n => (oldDiceDict [Elem.int n]).map (probAssoc fdiv)
  | .list ds => (oldDiceDict ds).map (probAssoc fdiv)
  | .str => .error .invalidArgument

/-! ### Algebraic properties of the merge -/

theorem merge_zero_left (d : Multiset ℤ) : mergeDiceDicts 0 d = d := by
  simp [mergeDiceDicts]

theorem merge_zero_right (d : Multiset ℤ) : mergeDiceDicts d 0 = d := by
  by_cases h : d = 0 <;> simp [mergeDiceDicts, h]

theorem merge_of_ne {d1 d2 : Multiset ℤ} (h1 : d1 ≠ 0) (h2 : d2 ≠ 0) :
    mergeDiceDicts d1 d2 = rawConv d1 d2 := by
  simp [mergeDiceDicts, rawConv, h1, h2]

theorem card_rawConv (d1 d2 : Multiset ℤ) :
    Multiset.card (rawConv d1 d2) = Multiset.card d1 * Multiset.card d2 := by
  simp only [rawConv, Multiset.card_bind, Function.comp_def, Multiset.card_map]
  rw [Multiset.map_const', Multiset.sum_replicate, smul_eq_mul]

theorem rawConv_ne_zero {d1 d2 : Multiset ℤ} (h1 : d1 ≠ 0) (h2 : d2 ≠ 0) :
    rawConv d1 d2 ≠ 0 := by
  rw [← Multiset.card_pos, card_rawConv]
  exact Nat.mul_pos (Multiset.card_pos.mpr h1) (Multiset.card_pos.mpr h2)

theorem rawConv_comm (d1 d2 : Multiset ℤ) : rawConv d1 d2 = rawConv d2 d1 := by
  unfold rawConv
  rw [Multiset.bind_map_comm]
  exact Multiset.bind_congr fun b _ => Multiset.map_congr rfl fun a _ => add_comm a b

theorem rawConv_assoc (a b c : Multiset ℤ) :
    rawConv (rawConv a b) c = rawConv a (rawConv b c) := by
  unfold rawConv
  rw [Multiset.bind_assoc]
  refine Multiset.bind_congr fun x _ => ?_
  rw [Multiset.bind_map, Multiset.map_bind]
  refine Multiset.bind_congr fun y _ => ?_
  rw [Multiset.map_map]
  exact Multiset.map_congr rfl fun z _ => add_assoc x y z

theorem merge_comm (d1 d2 : Multiset ℤ) :
    mergeDiceDicts d1 d2 = mergeDiceDicts d2 d1 := by
  by_cases h1 : d1 = 0
  · subst h1; rw [merge_zero_left, merge_zero_right]
  · by_cases h2 : d2 = 0
    · subst h2; rw [merge_zero_left, merge_zero_right]
    · rw [merge_of_ne h1 h2, merge_of_ne h2 h1, rawConv_comm]

theorem merge_assoc (a b c : Multiset ℤ) :
    mergeDiceDicts (mergeDiceDicts a b) c = mergeDiceDicts a (mergeDiceDicts b c) := by
  by_cases ha : a = 0
  · subst ha; rw [merge_zero_left, merge_zero_left]
  by_cases hb : b = 0
  · subst hb; rw [merge_zero_right, merge_zero_left]
  by_cases hc : c = 0
  · subst hc; rw [merge_zero_right, merge_zero_right]
  rw [merge_of_ne ha hb, merge_of_ne hb hc,
    merge_of_ne (rawConv_ne_zero ha hb) hc, merge_of_ne ha (rawConv_ne_zero hb hc),
    rawConv_assoc]

/-! ### The semantic value of `diceDict` -/

theorem sem_nil : sem [] = 0 := rfl

theorem sem_cons (e : Elem) (ds : List Elem) :
    sem (e :: ds) = mergeDiceDicts (dieM e) (sem ds) := rfl

theorem sem_append (l1 l2 : List Elem) :
    sem (l1 ++ l2) = mergeDiceDicts (sem l1) (sem l2) := by
  induction l1 with
  | nil => rw [List.nil_append, sem_nil, merge_zero_left]
  | cons e l ih =>
      rw [List.cons_append, sem_cons, sem_cons, ih, merge_assoc]

theorem sem_perm {l1 l2 : List Elem} (h : l1.Perm l2) : sem l1 = sem l2 := by
  unfold sem
  haveI : LeftCommutative (fun (e : Elem) (acc : Multiset ℤ) => mergeDiceDicts (dieM e) acc) :=
    ⟨fun a b c => by
      rw [← merge_assoc, ← merge_assoc, merge_comm (dieM a) (dieM b)]⟩
  exact h.foldr_eq 0

theorem card_uniformDie (n : ℤ) : Multiset.card (uniformDie n) = n.toNat := by
  unfold uniformDie
  rw [Multiset.coe_card, List.length_map, List.length_range]

theorem card_dieM (e : Elem) : Multiset.card (dieM e) = faceCount e := by
  cases e with
  | int n => exact card_uniformDie n
  | list vs => exact Multiset.coe_card vs
  | str => rfl

theorem validList_iff {ds : List Elem} :
    validList ds = true ↔ ∀ e ∈ ds, validElem e = true := by
  simp [validList, List.all_eq_true]

theorem singleDie_valid {e : Elem} (h : validElem e = true) :
    singleDie e = .ok (dieM e) := by
  cases e with
  | int n =>
      have hn : 0 < n := by simpa [validElem] using h
      simp [singleDie, dieM, hn]
  | list vs => rfl
  | str => simp [validElem] at h

theorem diceDictWith_eq_sem (sh : Shuffle) :
    ∀ (ds : List Elem), validList ds = true → diceDictWith sh ds = .ok (sem ds) := by
  have main : ∀ (n : ℕ) (ds : List Elem), ds.length ≤ n → validList ds = true →
      diceDictWith sh ds = .ok (sem ds) := by
    intro n
    induction n with
    | zero =>
        intro ds hlen _
        have hds : ds = [] := List.length_eq_zero.mp (Nat.le_zero.mp hlen)
        subst hds
        simp [diceDictWith, sem_nil]
    | succ n ih =>
        intro ds hlen hv
        cases ds with
        | nil => simp [diceDictWith, sem_nil]
        | cons d1 tl =>
          cases tl with
          | nil =>
              have he : validElem d1 = true := by simpa [validList] using hv
              have h1 : diceDictWith sh [d1] = singleDie d1 := by simp [diceDictWith]
              rw [h1, singleDie_valid he, sem_cons, sem_nil, merge_zero_right]
          | cons d2 rest =>
              have hperm : ((sh (d1 :: d2 :: rest)).val).Perm (d1 :: d2 :: rest) :=
                (sh (d1 :: d2 :: rest)).2
              have hlen2 : (sh (d1 :: d2 :: rest)).val.length = rest.length + 2 := by
                rw [hperm.length_eq]; simp
              have hlen' : rest.length + 2 ≤ n + 1 := by simpa using hlen
              have hvl : ∀ e ∈ (sh (d1 :: d2 :: rest)).val, validElem e = true :=
                fun e he => validList_iff.mp hv e (hperm.subset he)
              have hunf : diceDictWith sh (d1 :: d2 :: rest) =
                  ((diceDictWith sh (((sh (d1 :: d2 :: rest)).val).take
                      ((sh (d1 :: d2 :: rest)).val.length / 2))).bind
                    (fun left =>
                      ((diceDictWith sh (((sh (d1 :: d2 :: rest)).val).drop
                          ((sh (d1 :: d2 :: rest)).val.length / 2))).bind
                        (fun right => .ok (mergeDiceDicts left right))))) := by
                simp only [diceDictWith]
              have htake := ih
                ((sh (d1 :: d2 :: rest)).val.take ((sh (d1 :: d2 :: rest)).val.length / 2))
                (by rw [List.length_take, hlen2]; omega)
                (validList_iff.mpr fun e he => hvl e (List.take_subset _ _ he))
              have hdrop := ih
                ((sh (d1 :: d2 :: rest)).val.drop ((sh (d1 :: d2 :: rest)).val.length / 2))
                (by rw [List.length_drop, hlen2]; omega)
                (validList_iff.mpr fun e he => hvl e (List.drop_subset _ _ he))
              rw [hunf, htake, hdrop]
              show Except.ok
                  (mergeDiceDicts
                    (sem ((sh (d1 :: d2 :: rest)).val.take
                      ((sh (d1 :: d2 :: rest)).val.length / 2)))
                    (sem ((sh (d1 :: d2 :: rest)).val.drop
                      ((sh (d1 :: d2 :: rest)).val.length / 2)))) =
                Except.ok (sem (d1 :: d2 :: rest))
              congr 1
              rw [← sem_append, List.take_append_drop]
              exact sem_perm hperm
  exact fun ds hv => main ds.length ds (Nat.le_refl _) hv

/-! ### Counting the convolution -/

theorem count_map_add_right (a s : ℤ) (d : Multiset ℤ) :
    (d.map (fun k2 => a + k2)).count s = d.count (s - a) := by
  have hinj : Function.Injective (fun k2 : ℤ => a + k2) := fun x y h => by
    simpa using h
  have h1 : (d.map (fun k2 => a + k2)).count (a + (s - a)) = d.count (s - a) :=
    Multiset.count_map_eq_count' _ d hinj (s - a)
  rwa [add_sub_cancel] at h1

theorem count_rawConv (d1 d2 : Multiset ℤ) (s : ℤ) :
    (rawConv d1 d2).count s = ∑ a ∈ d1.toFinset, d1.count a * d2.count (s - a) := by
  rw [rawConv, Multiset.count_bind, Finset.sum_multiset_map_count]
  refine Finset.sum_congr rfl fun a _ => ?_
  rw [smul_eq_mul, count_map_add_right]

theorem count_rawConv_pairs (d1 d2 : Multiset ℤ) (s : ℤ) :
    (rawConv d1 d2).count s =
      ∑ p ∈ (d1.toFinset ×ˢ d2.toFinset).filter (fun p => p.1 + p.2 = s),
        d1.count p.1 * d2.count p.2 := by
  rw [count_rawConv, Finset.sum_filter, Finset.sum_product]
  refine Finset.sum_congr rfl fun a _ => ?_
  symm
  calc ∑ b ∈ d2.toFinset, (if a + b = s then d1.count a * d2.count b else 0)
      = ∑ b ∈ d2.toFinset, (if b = s - a then d1.count a * d2.count b else 0) := by
        refine Finset.sum_congr rfl fun b _ => ?_
        exact if_congr (by rw [eq_sub_iff_add_eq, add_comm]) rfl rfl
    _ = if s - a ∈ d2.toFinset then d1.count a * d2.count (s - a) else 0 :=
        Finset.sum_ite_eq' _ _ _
    _ = d1.count a * d2.count (s - a) := by
        by_cases hmem : s - a ∈ d2.toFinset
        · rw [if_pos hmem]
        · rw [if_neg hmem,
            Multiset.count_eq_zero_of_not_mem (fun hc => hmem (Multiset.mem_toFinset.mpr hc)),
            mul_zero]

theorem mem_rawConv {d1 d2 : Multiset ℤ} {s : ℤ} :
    s ∈ rawConv d1 d2 ↔ ∃ a ∈ d1, ∃ b ∈ d2, a + b = s := by
  simp [rawConv]

/-! ### The total count of a distribution -/

theorem card_sem {ds : List Elem} (hne : ds ≠ [])
    (hf : ∀ e ∈ ds, faceCount e ≠ 0) :
    Multiset.card (sem ds) = facesProd ds := by
  induction ds with
  | nil => cases hne rfl
  | cons e tl ih =>
      cases tl with
      | nil =>
          rw [sem_cons, sem_nil, merge_zero_right]
          simp [facesProd, card_dieM]
      | cons e2 tl2 =>
          have hf2 : ∀ x ∈ e2 :: tl2, faceCount x ≠ 0 :=
            fun x hx => hf x (List.mem_cons_of_mem _ hx)
          have hcard2 : Multiset.card (sem (e2 :: tl2)) = facesProd (e2 :: tl2) :=
            ih (by simp) hf2
          have hpos : 0 < facesProd (e2 :: tl2) := by
            refine List.prod_pos fun x hx => ?_
            rcases List.mem_map.mp hx with ⟨y, hy, rfl⟩
            exact Nat.pos_of_ne_zero (hf2 y hy)
          have hne2 : sem (e2 :: tl2) ≠ 0 := by
            rw [← Multiset.card_pos, hcard2]
            exact hpos
          have hdne : dieM e ≠ 0 := by
            rw [← Multiset.card_pos, card_dieM]
            exact Nat.pos_of_ne_zero (hf e (List.mem_cons_self e _))
          rw [sem_cons, merge_of_ne hdne hne2, card_rawConv, card_dieM, hcard2]
          simp [facesProd]

/-! ### The probability dictionary -/

theorem probAssoc_snd_sum (d : Multiset ℤ) (hd : d ≠ 0) :
    ((probAssoc fractionVal d).map Prod.snd).sum = 1 := by
  have hmap : (probAssoc fractionVal d).map Prod.snd =
      (d.toFinset.sort (· ≤ ·)).map
        (fun x => fractionVal (d.count x) (Multiset.card d)) := by
    unfold probAssoc
    rw [List.map_map]
    rfl
  rw [hmap]
  have hperm : ((d.toFinset.sort (· ≤ ·)).map
        (fun x => fractionVal (d.count x) (Multiset.card d))).Perm
      ((d.toFinset.toList).map (fun x => fractionVal (d.count x) (Multiset.card d))) :=
    (Finset.sort_perm_toList _ _).map _
  rw [hperm.sum_eq, Finset.sum_to_list]
  unfold fractionVal
  rw [← Finset.sum_div, ← Nat.cast_sum, Multiset.toFinset_sum_count_eq]
  exact div_self (Nat.cast_ne_zero.mpr (Multiset.card_pos.mpr hd).ne')

theorem probAssoc_mem {α : Type} (valf : ℕ → ℕ → α) (d : Multiset ℤ) {x : ℤ}
    (hx : x ∈ d) :
    (x, valf (d.count x) (Multiset.card d)) ∈ probAssoc valf d := by
  unfold probAssoc
  exact List.mem_map_of_mem _ ((Finset.mem_sort _).mpr (Multiset.mem_toFinset.mpr hx))

theorem probAssoc_zero {α : Type} (valf : ℕ → ℕ → α) : probAssoc valf 0 = [] := by
  unfold probAssoc
  simp

/-! ### The sampling loop -/

theorem exceptIsOk_map (x : Except PyError ℤ) (f : ℤ → ℤ) :
    exceptIsOk (x.map f) = exceptIsOk x := by
  cases x <;> rfl

theorem rollFrom_isOk (picks : ℕ → ℕ) (ds : List Elem) :
    ∀ i, exceptIsOk (rollFrom picks ds i) = ds.all elemRollOk := by
  induction ds with
  | nil => intro i; rfl
  | cons e tl ih =>
      intro i
      cases e with
      | int n =>
          by_cases h : 0 < n
          · simp [rollFrom, h, exceptIsOk_map, ih (i + 1), elemRollOk]
          · simp [rollFrom, h, elemRollOk, exceptIsOk]
      | list vs =>
          by_cases h : 0 < vs.length
          · simp [rollFrom, h, exceptIsOk_map, ih (i + 1), elemRollOk]
          · simp [rollFrom, h, elemRollOk, exceptIsOk]
      | str => simp [rollFrom, ih i, elemRollOk]

theorem rollFrom_filter (picks : ℕ → ℕ) (ds : List Elem) :
    ∀ i, rollFrom picks ds i = rollFrom picks (ds.filter (fun e => !e.isStr)) i := by
  induction ds with
  | nil => intro i; rfl
  | cons e tl ih =>
      intro i
      cases e with
      | int n =>
          rw [show (Elem.int n :: tl).filter (fun e => !e.isStr)
              = Elem.int n :: tl.filter (fun e => !e.isStr) from by
            simp [List.filter_cons, Elem.isStr]]
          by_cases h : 0 < n <;> simp [rollFrom, h, ih (i + 1)]
      | list vs =>
          rw [show (Elem.list vs :: tl).filter (fun e => !e.isStr)
              = Elem.list vs :: tl.filter (fun e => !e.isStr) from by
            simp [List.filter_cons, Elem.isStr]]
          by_cases h : 0 < vs.length <;> simp [rollFrom, h, ih (i + 1)]
      | str =>
          rw [show (Elem.str :: tl).filter (fun e => !e.isStr)
              = tl.filter (fun e => !e.isStr) from by
            simp [List.filter_cons, Elem.isStr]]
          exact ih i

/-! ### The older module computes the same distribution -/

theorem oldDiceDictWith_eq (sh : Shuffle) :
    ∀ ds : List Elem, oldDiceDictWith sh ds = diceDictWith sh ds := by
  have main : ∀ (n : ℕ) (ds : List Elem), ds.length ≤ n →
      oldDiceDictWith sh ds = diceDictWith sh ds := by
    intro n
    induction n with
    | zero =>
        intro ds hlen
        have hds : ds = [] := List.length_eq_zero.mp (Nat.le_zero.mp hlen)
        subst hds
        simp [oldDiceDictWith, diceDictWith]
    | succ n ih =>
        intro ds hlen
        cases ds with
        | nil => simp [oldDiceDictWith, diceDictWith]
        | cons d1 tl =>
          cases tl with
          | nil => simp [oldDiceDictWith, diceDictWith]
          | cons d2 rest =>
              have hlen2 : (sh (d1 :: d2 :: rest)).val.length = rest.length + 2 := by
                rw [(sh (d1 :: d2 :: rest)).2.length_eq]; simp
              have hlen' : rest.length + 2 ≤ n + 1 := by simpa using hlen
              have htake := ih
                ((sh (d1 :: d2 :: rest)).val.take ((sh (d1 :: d2 :: rest)).val.length / 2))
                (by rw [List.length_take, hlen2]; omega)
              have hdrop := ih
                ((sh (d1 :: d2 :: rest)).val.drop ((sh (d1 :: d2 :: rest)).val.length / 2))
                (by rw [List.length_drop, hlen2]; omega)
              rw [show oldDiceDictWith sh (d1 :: d2 :: rest) =
                  ((oldDiceDictWith sh (((sh (d1 :: d2 :: rest)).val).take
                      ((sh (d1 :: d2 :: rest)).val.length / 2))).bind
                    (fun left =>
                      ((oldDiceDictWith sh (((sh (d1 :: d2 :: rest)).val).drop
                          ((sh (d1 :: d2 :: rest)).val.length / 2))).bind
                        (fun right => .ok (oldMergeDiceDicts left right))))) from by
                simp only [oldDiceDictWith]]
              rw [show diceDictWith sh (d1 :: d2 :: rest) =
                  ((diceDictWith sh (((sh (d1 :: d2 :: rest)).val).take
                      ((sh (d1 :: d2 :: rest)).val.length / 2))).bind
                    (fun left =>
                      ((diceDictWith sh (((sh (d1 :: d2 :: rest)).val).drop
                          ((sh (d1 :: d2 :: rest)).val.length / 2))).bind
                        (fun right => .ok (mergeDiceDicts left right))))) from by
                simp only [diceDictWith]]
              simp only [htake, hdrop]
              rfl
  exact fun ds => main ds.length ds (Nat.le_refl _)

/-! ### Claims -/

theorem diceDictWith_singleton (sh : Shuffle) (e : Elem) :
    diceDictWith sh [e] = singleDie e := by
  simp [diceDictWith]

/-- C1: for outcome-count mappings `d1` and `d2` that are both
non-empty, `_mergeDiceDicts` returns the mapping whose entry at `s`
equals the sum of `d1[a] * d2[b]` over all key pairs `(a, b)` with
`a + b = s`, and `s` is a key of the result exactly when such a pair
exists; if either input is empty the other input is returned
unchanged. -/
theorem mergeDiceDicts_spec (d1 d2 : Multiset ℤ) :
    (d1 ≠ 0 → d2 ≠ 0 →
      (∀ s : ℤ, (mergeDiceDicts d1 d2).count s =
          ∑ p ∈ (d1.toFinset ×ˢ d2.toFinset).filter (fun p => p.1 + p.2 = s),
            d1.count p.1 * d2.count p.2) ∧
      (∀ s : ℤ, s ∈ mergeDiceDicts d1 d2 ↔ ∃ a ∈ d1, ∃ b ∈ d2, a + b = s)) ∧
    (d1 = 0 → mergeDiceDicts d1 d2 = d2) ∧
    (d2 = 0 → mergeDiceDicts d1 d2 = d1) := by
  refine ⟨fun h1 h2 => ⟨fun s => ?_, fun s => ?_⟩, fun h1 => ?_, fun h2 => ?_⟩
  · rw [merge_of_ne h1 h2]
    exact count_rawConv_pairs d1 d2 s
  · rw [merge_of_ne h1 h2]
    exact mem_rawConv
  · subst h1; exact merge_zero_left d2
  · subst h2; exact merge_zero_right d1

/-- Witness for C1 at `d1 = {1, 2}`, `d2 = {2}`, outcome `3`. -/
theorem mergeDiceDicts_spec_witness :
    (mergeDiceDicts {1, 2} {2}).count 3 =
      ∑ p ∈ ((({1, 2} : Multiset ℤ).toFinset ×ˢ ({2} : Multiset ℤ).toFinset).filter
          (fun p => p.1 + p.2 = 3)),
        ({1, 2} : Multiset ℤ).count p.1 * ({2} : Multiset ℤ).count p.2 :=
  ((mergeDiceDicts_spec {1, 2} {2}).1 (by decide) (by decide)).1 3

/-- C2 counterexample: the die-list `[[], 2]` — an empty face list
plus a two-sided die — is accepted by `diceDict` and its counts total
`2`, but the product of the face counts is `0 * 2 = 0`, so the claimed
equality fails on it. -/
theorem diceDict_total_product_cex :
    (diceDict [Elem.list [], Elem.int 2]).map Multiset.card = Except.ok 2 ∧
    facesProd [Elem.list [], Elem.int 2] = 0 := by
  constructor
  · show (diceDictWith idShuffle [Elem.list [], Elem.int 2]).map Multiset.card = Except.ok 2
    rw [diceDictWith_eq_sem idShuffle _ (by decide)]
    show Except.ok (Multiset.card (sem [Elem.list [], Elem.int 2])) = Except.ok 2
    exact congrArg Except.ok (by decide)
  · decide

/-- C2 amended: for every non-empty *valid* die-list in which every
die has at least one face, the counts returned by `diceDict` total
the product of the face counts (`n` for a `Uniform` die, `len(values)`
for an `Explicit` die).  A die-list containing an empty face list is
excluded: that die vanishes in the merge instead of zeroing the
product. -/
theorem diceDict_total_product (ds : List Elem) (hv : validList ds = true)
    (hne : ds ≠ []) (hf : ∀ e ∈ ds, faceCount e ≠ 0) :
    (diceDict ds).map Multiset.card = Except.ok (facesProd ds) := by
  show (diceDictWith idShuffle ds).map Multiset.card = Except.ok (facesProd ds)
  rw [diceDictWith_eq_sem idShuffle ds hv]
  show Except.ok (Multiset.card (sem ds)) = Except.ok (facesProd ds)
  exact congrArg Except.ok (card_sem hne hf)

/-- Witness for C2 (amended) on two six-sided dice: total `36`. -/
theorem diceDict_total_product_witness :
    (diceDict [Elem.int 6, Elem.int 6]).map Multiset.card =
      Except.ok (facesProd [Elem.int 6, Elem.int 6]) :=
  diceDict_total_product [Elem.int 6, Elem.int 6] (by decide) (by decide) (by decide)

/-- C3: on a valid die-list the mapping `diceDict` returns does not
depend on the shuffle outcomes, on the order of the input list, or on
the split point of the recursive case: for any permutation `ds2` of
`ds` and any split `1 ≤ L < ds2.length` (floor or ceiling of half the
length included), building the halves recursively under arbitrary
shuffles and merging gives exactly the canonical result on `ds`. -/
theorem diceDict_perm_split_invariant (sh1 sh2 sh3 : Shuffle) (ds ds2 : List Elem)
    (L : ℕ) (hv : validList ds = true) (hperm : ds2.Perm ds)
    (hL1 : 1 ≤ L) (hL2 : L < ds2.length) :
    ((diceDictWith sh1 (ds2.take L)).bind
      (fun left =>
        ((diceDictWith sh2 (ds2.drop L)).bind
          (fun right => .ok (mergeDiceDicts left right))))) =
    diceDictWith sh3 ds := by
  have hv2 : validList ds2 = true :=
    validList_iff.mpr fun e he => validList_iff.mp hv e (hperm.subset he)
  have hvt : validList (ds2.take L) = true :=
    validList_iff.mpr fun e he => validList_iff.mp hv2 e (List.take_subset _ _ he)
  have hvd : validList (ds2.drop L) = true :=
    validList_iff.mpr fun e he => validList_iff.mp hv2 e (List.drop_subset _ _ he)
  rw [diceDictWith_eq_sem sh1 _ hvt, diceDictWith_eq_sem sh2 _ hvd,
    diceDictWith_eq_sem sh3 _ hv]
  show Except.ok (mergeDiceDicts (sem (ds2.take L)) (sem (ds2.drop L))) =
    Except.ok (sem ds)
  rw [← sem_append, List.take_append_drop]
  exact congrArg Except.ok (sem_perm hperm)

/-- Witness for C3: a reversed three-element list split at the
ceiling point `2`, with a reversing shuffle inside one recursive
call, equals the canonical run on the original order. -/
theorem diceDict_perm_split_invariant_witness :
    ((diceDictWith reverseShuffle ([Elem.int 4, Elem.int 3, Elem.int 2].take 2)).bind
      (fun left =>
        ((diceDictWith idShuffle ([Elem.int 4, Elem.int 3, Elem.int 2].drop 2)).bind
          (fun right => .ok (mergeDiceDicts left right))))) =
    diceDictWith idShuffle [Elem.int 2, Elem.int 3, Elem.int 4] :=
  diceDict_perm_split_invariant reverseShuffle idShuffle idShuffle
    [Elem.int 2, Elem.int 3, Elem.int 4] [Elem.int 4, Elem.int 3, Elem.int 2] 2
    (by decide) (by decide) (by decide) (by decide)

/-- C4 counterexample: when `random.shuffle` draws the reversing
permutation, the caller's list `[1, 2]` reads `[2, 1]` after the
call: `diceDict` does mutate the die-list it is given. -/
theorem diceDict_no_mutation_cex :
    diceDictPost reverseShuffle [Elem.int 1, Elem.int 2] ≠ [Elem.int 1, Elem.int 2] := by
  decide

/-- C4 amended: the in-place shuffle may reorder the caller's list,
and that is the only mutation: after any call the caller's list is a
permutation of what was passed (no die is added, removed or altered),
and the returned mapping is the one the unshuffled run produces. -/
theorem diceDict_mutation_only_permutes (sh : Shuffle) (ds : List Elem) :
    (diceDictPost sh ds).Perm ds ∧
    (validList ds = true → diceDictWith sh ds = diceDict ds) := by
  constructor
  · cases ds with
    | nil => exact List.Perm.refl _
    | cons d tl =>
        cases tl with
        | nil => exact List.Perm.refl _
        | cons d2 rest => exact (sh (d :: d2 :: rest)).2
  · intro hv
    show diceDictWith sh ds = diceDictWith idShuffle ds
    rw [diceDictWith_eq_sem sh ds hv, diceDictWith_eq_sem idShuffle ds hv]

/-- Witness for C4 (amended) with the reversing shuffle on `[1, 2]`. -/
theorem diceDict_mutation_only_permutes_witness :
    (diceDictPost reverseShuffle [Elem.int 1, Elem.int 2]).Perm
      [Elem.int 1, Elem.int 2] ∧
    diceDictWith reverseShuffle [Elem.int 1, Elem.int 2] =
      diceDict [Elem.int 1, Elem.int 2] :=
  ⟨(diceDict_mutation_only_permutes reverseShuffle [Elem.int 1, Elem.int 2]).1,
   (diceDict_mutation_only_permutes reverseShuffle [Elem.int 1, Elem.int 2]).2 (by decide)⟩

/-- C5 counterexample: on the empty die-list the total is `0`, yet
`diceProb` raises nothing: the comprehension runs over an empty key
set and the empty mapping is returned (in exact mode here). -/
theorem diceProb_zero_total_cex :
    diceProbExact (PyVal.list []) = Except.ok [] := by
  show (diceDictWith idShuffle []).map (probAssoc fractionVal) = Except.ok []
  rw [diceDictWith_eq_sem idShuffle [] (by decide)]
  show Except.ok (probAssoc fractionVal (sem [])) = Except.ok []
  rw [sem_nil, probAssoc_zero]

/-- C5 amended: when a valid die-list evaluates to a total of `0`
outcomes (the empty die-list, or one made only of empty face lists),
`diceProb` does not raise: it returns the empty probability mapping,
in either mode. -/
theorem diceProb_zero_total {α : Type} (valf : ℕ → ℕ → α) (ds : List Elem)
    (hv : validList ds = true) (hzero : sem ds = 0) :
    diceProbWith valf (PyVal.list ds) = Except.ok [] := by
  show (diceDictWith idShuffle ds).map (probAssoc valf) = Except.ok []
  rw [diceDictWith_eq_sem idShuffle ds hv]
  show Except.ok (probAssoc valf (sem ds)) = Except.ok []
  rw [hzero, probAssoc_zero]

/-- Witness for C5 (amended) on a die-list holding one empty face
list. -/
theorem diceProb_zero_total_witness :
    diceProbWith fractionVal (PyVal.list [Elem.list []]) = Except.ok [] :=
  diceProb_zero_total fractionVal [Elem.list []] (by decide) (by decide)

/-- C6 counterexample: `diceDict(0)` trips the `isinstance(diceList,
list)` assertion — the invalid-argument error — not the
nonpositive-sides error; and a bare positive integer such as `6` is
rejected the same way instead of being auto-promoted. -/
theorem diceDict_bare_int_cex :
    diceDictPy (PyVal.int 0) = Except.error PyError.invalidArgument ∧
    diceDictPy (PyVal.int 0) ≠ Except.error PyError.invalidDie ∧
    diceDictPy (PyVal.int 6) = Except.error PyError.invalidArgument := by
  refine ⟨rfl, fun h => ?_, rfl⟩
  exact PyError.noConfusion (Except.error.inj h)

/-- C6 amended: `diceDict` auto-promotes nothing: every non-list
top-level argument — the bare integers `0` and `-3`, a string, and
any bare integer, positive ones included — fails with the
invalid-argument assertion.  The nonpositive-sides error arises one
level down, on the one-element die-lists `[0]` and `[-3]`.  (The
auto-promotion of a bare integer lives in `diceProb` and `roll`, not
in `diceDict`.) -/
theorem diceDict_bare_int_amended :
    diceDictPy (PyVal.int 0) = Except.error PyError.invalidArgument ∧
    diceDictPy (PyVal.int (-3)) = Except.error PyError.invalidArgument ∧
    diceDictPy PyVal.str = Except.error PyError.invalidArgument ∧
    (∀ n : ℤ, diceDictPy (PyVal.int n) = Except.error PyError.invalidArgument) ∧
    diceDict [Elem.int 0] = Except.error PyError.invalidDie ∧
    diceDict [Elem.int (-3)] = Except.error PyError.invalidDie := by
  refine ⟨rfl, rfl, rfl, fun n => rfl, ?_, ?_⟩
  · show diceDictWith idShuffle [Elem.int 0] = Except.error PyError.invalidDie
    rw [diceDictWith_singleton]
    rfl
  · show diceDictWith idShuffle [Elem.int (-3)] = Except.error PyError.invalidDie
    rw [diceDictWith_singleton]
    rfl

/-- C7 counterexample: `roll` on a list made of a non-integer,
non-list element followed by a one-sided die does not fail: the
foreign element is silently skipped and the roll of the remaining
valid die is returned. -/
theorem roll_failure_modes_cex :
    roll (fun _ => 0) (PyVal.list [Elem.str, Elem.int 1]) = Except.ok 1 := rfl

/-- C7 amended: `roll` shares `diceDict`'s top-level failure mode — a
non-list, non-integer argument fails the invalid-argument assertion —
and fails whenever the list holds a nonpositive integer element; but
an element that is neither an integer nor a list is silently skipped
(the loop behaves as on the list with those elements removed), so
`roll` can return an integer computed from the valid elements only. -/
theorem roll_failure_modes (picks : ℕ → ℕ) :
    roll picks PyVal.str = Except.error PyError.invalidArgument ∧
    (∀ (ds : List Elem) (i : ℕ),
      rollFrom picks ds i = rollFrom picks (ds.filter (fun e => !e.isStr)) i) ∧
    (∀ (ds : List Elem) (n : ℤ), Elem.int n ∈ ds → n ≤ 0 →
      exceptIsOk (roll picks (PyVal.list ds)) = false) := by
  refine ⟨rfl, rollFrom_filter picks, fun ds n hmem hn => ?_⟩
  show exceptIsOk (rollFrom picks ds 0) = false
  rw [rollFrom_isOk picks ds 0]
  refine List.all_eq_false.mpr ⟨Elem.int n, hmem, ?_⟩
  simp only [elemRollOk, decide_eq_true_eq]
  omega

/-- Witness for C7 (amended): a zero-sided die makes `roll` fail. -/
theorem roll_failure_modes_witness :
    exceptIsOk (roll (fun _ => 0) (PyVal.list [Elem.int 0])) = false :=
  (roll_failure_modes (fun _ => 0)).2.2 [Elem.int 0] 0 (by decide) (by decide)

/-- C8: in exact mode, on a valid die-list with at least one outcome,
`diceProb` returns the mapping that holds, for each outcome `x`, the
exact rational `count(x)/S` (`S` the sum of all counts, the value
Python's `Fraction(count, S)` compares equal to), and the returned
probabilities sum to exactly `1`. -/
theorem diceProb_exact_spec (ds : List Elem) (hv : validList ds = true)
    (hne : sem ds ≠ 0) :
    diceProbExact (PyVal.list ds) = Except.ok (probAssoc fractionVal (sem ds)) ∧
    (∀ x ∈ sem ds,
      (x, ((sem ds).count x : ℚ) / (Multiset.card (sem ds) : ℚ)) ∈
        probAssoc fractionVal (sem ds)) ∧
    ((probAssoc fractionVal (sem ds)).map Prod.snd).sum = 1 := by
  refine ⟨?_, fun x hx => probAssoc_mem fractionVal (sem ds) hx,
    probAssoc_snd_sum _ hne⟩
  show (diceDictWith idShuffle ds).map (probAssoc fractionVal) =
    Except.ok (probAssoc fractionVal (sem ds))
  rw [diceDictWith_eq_sem idShuffle ds hv]
  rfl

/-- Witness for C8 on one two-sided die. -/
theorem diceProb_exact_spec_witness :
    diceProbExact (PyVal.list [Elem.int 2]) =
      Except.ok (probAssoc fractionVal (sem [Elem.int 2])) ∧
    ((probAssoc fractionVal (sem [Elem.int 2])).map Prod.snd).sum = 1 :=
  ⟨(diceProb_exact_spec [Elem.int 2] (by decide) (by decide)).1,
   (diceProb_exact_spec [Elem.int 2] (by decide) (by decide)).2.2⟩

/-- C9: on a valid die-list with at least one outcome, the older
floats-only `diceProb` of `dice/dice.py` and the newer `diceProb` of
`dice.py` with `exact=False` return equal probability mappings — the
same outcome keys, each mapped to the same value — whatever value the
floating-point division produces, since both apply it to identical
numerators and denominators. -/
theorem diceProb_old_eq_new {F : Type} (fdiv : ℕ → ℕ → F) (ds : List Elem)
    (hv : validList ds = true) (hne : sem ds ≠ 0) :
    oldDiceProb fdiv (PyVal.list ds) = diceProbFloat fdiv (PyVal.list ds) := by
  show (oldDiceDictWith idShuffle ds).map (probAssoc fdiv) =
    (diceDictWith idShuffle ds).map (probAssoc fdiv)
  rw [oldDiceDictWith_eq idShuffle ds]

/-- Witness for C9 on one two-sided die, with exact division standing
in for the abstract float division. -/
theorem diceProb_old_eq_new_witness :
    oldDiceProb fractionVal (PyVal.list [Elem.int 2]) =
      diceProbFloat fractionVal (PyVal.list [Elem.int 2]) :=
  diceProb_old_eq_new fractionVal [Elem.int 2] (by decide) (by decide)

/-- C10: a valid die-list holding an empty face list among at least
two dice makes the two public operations disagree: `roll` always
raises (whatever the random draws — `random.choice` on the empty
sequence fails when reached), while `diceDict` succeeds and returns
the distribution of the remaining dice, the empty die acting as the
merge identity. -/
theorem roll_diceDict_disagree_empty_die (picks : ℕ → ℕ) (ds : List Elem)
    (hv : validList ds = true) (hmem : Elem.list [] ∈ ds) (hlen : 2 ≤ ds.length) :
    exceptIsOk (roll picks (PyVal.list ds)) = false ∧
    diceDict ds = Except.ok (sem (ds.erase (Elem.list []))) := by
  constructor
  · show exceptIsOk (rollFrom picks ds 0) = false
    rw [rollFrom_isOk picks ds 0]
    exact List.all_eq_false.mpr ⟨Elem.list [], hmem, by simp [elemRollOk]⟩
  · show diceDictWith idShuffle ds = Except.ok (sem (ds.erase (Elem.list [])))
    rw [diceDictWith_eq_sem idShuffle ds hv]
    refine congrArg Except.ok ?_
    have hp : ds.Perm (Elem.list [] :: ds.erase (Elem.list [])) :=
      List.perm_cons_erase hmem
    rw [sem_perm hp, sem_cons]
    rw [show dieM (Elem.list []) = (0 : Multiset ℤ) from rfl, merge_zero_left]

/-- Witness for C10 on the die-list `[[], 2]`. -/
theorem roll_diceDict_disagree_empty_die_witness :
    exceptIsOk (roll (fun _ => 0) (PyVal.list [Elem.list [], Elem.int 2])) = false ∧
    diceDict [Elem.list [], Elem.int 2] =
      Except.ok (sem ([Elem.list [], Elem.int 2].erase (Elem.list []))) :=
  roll_diceDict_disagree_empty_die (fun _ => 0) [Elem.list [], Elem.int 2]
    (by decide) (by decide) (by decide)
